import Mathlib

/-!
Shallow embedding of the `mechanismaf` specification algebra
(`src/mechanismaf/components.py` and the package interface in
`src/mechanismaf/__init__.py`).

Modelling conventions:
* Python numbers are modelled by exact rationals (`ℚ`) for the rounding,
  matching and deduplication operations, and by real numbers (`ℝ`) for the
  trigonometric coordinate transform; binary floating-point representation
  error is out of scope.
* A specification element `["bar", start, end]` / `["bar", start, end, opts]`
  is the constructor `Element.bar start end none` /
  `Element.bar start end (some opts)`; any non-bar entry (e.g. a mechanism
  name tag) is `Element.other`.
* Python's in-place mutation of a specification list is modelled by
  returning the updated specification value.
-/

namespace Mechanismaf

/-- A 2D point with rational coordinates. -/
abbrev QPoint := ℚ × ℚ

/-- A value stored in a bar's options dictionary: a string (e.g. the
`"ground"` style), an angle-sweep triple, or some other opaque value. -/
inductive AttrVal where
  | str : String → AttrVal
  | sweep : ℚ × ℚ × ℚ → AttrVal
  | nat : ℕ → AttrVal
deriving DecidableEq, Repr

/-- A bar's options dictionary: an insertion-ordered association list with
unique keys, mirroring a Python `dict`. -/
abbrev AttrMap := List (String × AttrVal)

/-- `m[k] = v` on a Python dict: overwrite the existing entry for `k` in
place, or append a new entry at the end. -/
def dictSet (m : AttrMap) (k : String) (v : AttrVal) : AttrMap :=
  match m with
  | [] => [(k, v)]
  | (k', v') :: rest => if k' = k then (k, v) :: rest else (k', v') :: dictSet rest k v

/-- Dictionary lookup `m.get(k)`. -/
def lookupKey (k : String) (m : AttrMap) : Option AttrVal :=
  match m with
  | [] => none
  | (k', v) :: rest => if k' = k then some v else lookupKey k rest

/-- `del m[k]` (tolerant: no-op when the key is absent). -/
def eraseKey (k : String) : AttrMap → AttrMap
  | [] => []
  | (k', v) :: rest => if k' = k then rest else (k', v) :: eraseKey k rest

/-- One entry of a specification list: a bar with two endpoints and an
optional options dictionary, or an opaque non-bar entry. -/
inductive Element (α : Type) where
  | bar : α × α → α × α → Option AttrMap → Element α
  | other : String → Element α
deriving DecidableEq, Repr

/-- A specification: an ordered list of elements. -/
abbrev Spec (α : Type) := List (Element α)

/-- The options dictionary of an element (`none` for non-bar entries and
for bars in the 3-element form). -/
def attrsOf : Element α → Option AttrMap
  | .bar _ _ a => a
  | .other _ => none

/-- Lookup of an attribute key on an element, through `attrsOf`. -/
def attrLookup (k : String) (el : Element α) : Option AttrVal :=
  match attrsOf el with
  | none => none
  | some m => lookupKey k m

/-- `True` exactly on non-bar elements. -/
def isOther : Element α → Bool
  | .bar _ _ _ => false
  | .other _ => true

/-! ### Rounding (Python `round`, half-to-even, over exact rationals) -/

/-- Round a rational to the nearest integer, ties to even — the rounding
Python's builtin `round` uses. -/
def roundHalfEven (q : ℚ) : ℤ :=
  let f := ⌊q⌋
  let frac := q - (f : ℚ)
  if frac < 1/2 then f
  else if 1/2 < frac then f + 1
  else if 2 ∣ f then f else f + 1

/-- Python `round(x, d)` for nonnegative `d`, over exact rationals. -/
def pyRound (d : ℕ) (q : ℚ) : ℚ :=
  (roundHalfEven (q * 10 ^ d) : ℚ) / 10 ^ d

/-- `round_coord(coord, decimal)`: round both components of a point. -/
def round_coord (p : QPoint) (d : ℕ) : QPoint :=
  (pyRound d p.1, pyRound d p.2)

/-! ### Duplicate-bar removal and spec combination -/

/-- Python `sorted([s, e])` on a two-element list of pairs: lexicographic
order, stable on equal pairs. -/
def sortPair (a b : QPoint) : QPoint × QPoint :=
  if a.1 < b.1 then (a, b)
  else if b.1 < a.1 then (b, a)
  else if a.2 ≤ b.2 then (a, b)
  else (b, a)

/-- The deduplication key of a bar: the unordered pair of its endpoints
rounded to `d` decimal places. -/
def barKey (d : ℕ) (s e : QPoint) : QPoint × QPoint :=
  sortPair (round_coord s d) (round_coord e d)

/-- The deduplication key of an element: `none` for non-bar elements. -/
def elemKey (d : ℕ) : Element ℚ → Option (QPoint × QPoint)
  | .bar s e _ => some (barKey d s e)
  | .other _ => none

/-- The single pass of `remove_duplicate_bars`: carry the set of keys seen
so far; drop a bar whose key was already seen, keep everything else. -/
def dedupGo (d : ℕ) (seen : List (QPoint × QPoint)) : Spec ℚ → Spec ℚ
  | [] => []
  | el :: rest =>
    match el with
    | .bar s e a =>
      let k := barKey d s e
      if k ∈ seen then dedupGo d seen rest
      else .bar s e a :: dedupGo d (k :: seen) rest
    | .other x => .other x :: dedupGo d seen rest

/-- `remove_duplicate_bars(spec, decimal=3)`. -/
def remove_duplicate_bars (spec : Spec ℚ) (d : ℕ := 3) : Spec ℚ :=
  dedupGo d [] spec

/-- One variadic argument of `combine_specs`: `None`, a specification, or a
tuple whose first item is used (the rest, modelled by an opaque number, is
discarded; a tuple may also carry `None` in first position). -/
inductive SpecArg (α : Type) where
  | noneArg : SpecArg α
  | specArg : Spec α → SpecArg α
  | tupleArg : Option (Spec α) → ℕ → SpecArg α

/-- The specification an argument contributes: `none` when it is skipped. -/
def extractArg : SpecArg α → Option (Spec α)
  | .noneArg => none
  | .specArg s => some s
  | .tupleArg os _ => os

/-- `combine_specs(*specs)`: extend an accumulator with each non-`None`
argument's specification (taking a tuple's first item), then remove
duplicate bars at the default precision. -/
def combine_specs (args : List (SpecArg ℚ)) : Spec ℚ :=
  remove_duplicate_bars
    (args.foldl (fun acc a =>
      match extractArg a with
      | none => acc
      | some s => acc ++ s) [])
    3

/-! ### Matching and tagging -/

/-- The order-independent rounded match of `set_style_ground` /
`set_angle_sweep`: the element's rounded endpoints equal the (already
rounded) query endpoints in either order. -/
def barMatches (d : ℕ) (qs qe s e : QPoint) : Prop :=
  (round_coord s d = qs ∧ round_coord e d = qe) ∨
  (round_coord s d = qe ∧ round_coord e d = qs)

instance (d : ℕ) (qs qe s e : QPoint) : Decidable (barMatches d qs qe s e) := by
  unfold barMatches; infer_instance

/-- Whether an element is a bar matching an (already rounded) query pair. -/
def elMatches (d : ℕ) (qs qe : QPoint) : Element ℚ → Prop
  | .bar s e _ => barMatches d qs qe s e
  | .other _ => False

instance (d : ℕ) (qs qe : QPoint) (el : Element ℚ) : Decidable (elMatches d qs qe el) := by
  unfold elMatches; cases el <;> infer_instance

/-- The style value `"ground"`. -/
def styleGroundVal : AttrVal := .str "ground"

/-- The update `set_style_ground` performs on one element for one (already
rounded) query pair: set `style` to `"ground"` on a matching bar, creating
the options dictionary when absent; leave everything else unchanged. -/
def tagGround (d : ℕ) (qs qe : QPoint) (el : Element ℚ) : Element ℚ :=
  match el with
  | .other x => .other x
  | .bar s e attrs =>
    if barMatches d qs qe s e then
      match attrs with
      | none => .bar s e (some [("style", styleGroundVal)])
      | some m => .bar s e (some (dictSet m "style" styleGroundVal))
    else .bar s e attrs

/-- `set_style_ground(spec, bar_list, decimal=3)`: for each query pair (in
order), round it and update every matching bar in the specification. -/
def set_style_ground (spec : Spec ℚ) (bar_list : List (QPoint × QPoint)) (d : ℕ := 3) :
    Spec ℚ :=
  bar_list.foldl
    (fun sp q => sp.map (tagGround d (round_coord q.1 d) (round_coord q.2 d))) spec

/-- The update `set_angle_sweep` performs on one element for one (already
rounded) query pair and its sweep triple. -/
def tagSweep (d : ℕ) (qs qe : QPoint) (sw : ℚ × ℚ × ℚ) (el : Element ℚ) : Element ℚ :=
  match el with
  | .other x => .other x
  | .bar s e attrs =>
    if barMatches d qs qe s e then
      match attrs with
      | none => .bar s e (some [("angle_sweep", .sweep sw)])
      | some m => .bar s e (some (dictSet m "angle_sweep" (.sweep sw)))
    else .bar s e attrs

/-- `set_angle_sweep(spec, bar_sweep_dict, decimal=3)`: the dictionary is
modelled as an insertion-ordered list of (query pair, sweep) entries. -/
def set_angle_sweep (spec : Spec ℚ)
    (bar_sweep_dict : List ((QPoint × QPoint) × (ℚ × ℚ × ℚ))) (d : ℕ := 3) : Spec ℚ :=
  bar_sweep_dict.foldl
    (fun sp q => sp.map (tagSweep d (round_coord q.1.1 d) (round_coord q.1.2 d) q.2)) spec

/-! ### The geometric coordinate transform (over `ℝ`) -/

/-- `scale_rotate_translate_coord(coord, scale, rotation_deg, origin)`:
scale both components, rotate about (0,0) by the angle converted from
degrees to radians, then translate by `origin`. -/
noncomputable def scale_rotate_translate_coord (coord : ℝ × ℝ) (scale : ℝ)
    (rotation_deg : ℝ) (origin : ℝ × ℝ) : ℝ × ℝ :=
  let sx := coord.1 * scale
  let sy := coord.2 * scale
  let theta := rotation_deg * Real.pi / 180
  let rx := sx * Real.cos theta - sy * Real.sin theta
  let ry := sx * Real.sin theta + sy * Real.cos theta
  (rx + origin.1, ry + origin.2)

/-- The per-element action of `transform_spec`: both endpoints of a bar go
through the coordinate transform, the options dictionary (when present) is
carried over unchanged, and non-bar elements are returned as they are. -/
noncomputable def transformElement (scale : ℝ) (origin : ℝ × ℝ) (rotation_deg : ℝ) :
    Element ℝ → Element ℝ
  | .bar s e attrs =>
    .bar (scale_rotate_translate_coord s scale rotation_deg origin)
      (scale_rotate_translate_coord e scale rotation_deg origin) attrs
  | .other x => .other x

/-- `transform_spec(spec, scale, origin, rotation_deg)`: build a new
specification by transforming each element in order. -/
noncomputable def transform_spec (spec : Spec ℝ) (scale : ℝ) (origin : ℝ × ℝ)
    (rotation_deg : ℝ) : Spec ℝ :=
  match spec with
  | [] => []
  | el :: rest => transformElement scale origin rotation_deg el ::
      transform_spec rest scale origin rotation_deg

/-! ### Ground / sweep stripping -/

/-- Strip the `angle_sweep` key from a surviving bar's options dictionary;
when the removal leaves the dictionary empty (or there was none), the bar
reverts to the 3-element form (`none`). -/
def stripBarAttrs (attrs : Option AttrMap) : Option AttrMap :=
  match attrs with
  | none => none
  | some m =>
    let m' := eraseKey "angle_sweep" m
    if m' = [] then none else some m'

/-- Whether an options dictionary marks a bar as ground. -/
def isGroundAttrs (attrs : Option AttrMap) : Bool :=
  match attrs with
  | none => false
  | some m => lookupKey "style" m = some styleGroundVal

/-- Modelled from the spec: `remove_ground_and_sweep` is re-exported by the
package's `__init__.py` but its definition is not among the provided source
files. Following the spec's words, it produces a new specification that
omits every bar whose style is "ground", removes the `angle_sweep` key from
each surviving bar's options dictionary, and re-emits a bar without an
options dictionary when that removal leaves the dictionary empty; other
elements pass through. -/
def remove_ground_and_sweep : Spec α → Spec α
  | [] => []
  | .bar s e attrs :: rest =>
    if isGroundAttrs attrs then remove_ground_and_sweep rest
    else .bar s e (stripBarAttrs attrs) :: remove_ground_and_sweep rest
  | .other x :: rest => .other x :: remove_ground_and_sweep rest

/-! ### Helper lemmas -/

theorem roundHalfEven_intCast (m : ℤ) : roundHalfEven (m : ℚ) = m := by
  simp [roundHalfEven]

theorem pyRound_den_one (d : ℕ) (q : ℚ) (h : q.den = 1) : pyRound d q = q := by
  have hq : ((q.num : ℚ)) = q := by
    conv_rhs => rw [← Rat.num_div_den q]
    rw [h]; push_cast; ring
  unfold pyRound
  have h2 : q * 10 ^ d = ((q.num * 10 ^ d : ℤ) : ℚ) := by push_cast; rw [hq]
  rw [h2, roundHalfEven_intCast]
  push_cast
  rw [hq]
  field_simp

theorem lookupKey_dictSet_ne (m : AttrMap) (k k' : String) (v : AttrVal)
    (h : k' ≠ k) : lookupKey k' (dictSet m k v) = lookupKey k' m := by
  induction m with
  | nil => simp [dictSet, lookupKey, h, Ne.symm h]
  | cons hd tl ih =>
    obtain ⟨k₀, v₀⟩ := hd
    by_cases hk : k₀ = k
    · subst hk
      simp [dictSet, lookupKey, h, Ne.symm h]
    · simp [dictSet, lookupKey, hk]
      by_cases hk' : k₀ = k'
      · simp [hk']
      · simp [hk', ih]

theorem lookupKey_eraseKey_ne (m : AttrMap) (k k' : String) (h : k' ≠ k) :
    lookupKey k' (eraseKey k m) = lookupKey k' m := by
  induction m with
  | nil => simp [eraseKey]
  | cons hd tl ih =>
    obtain ⟨k₀, v₀⟩ := hd
    by_cases hk : k₀ = k
    · subst hk
      simp [eraseKey, lookupKey, Ne.symm h]
    · simp [eraseKey, lookupKey, hk]
      by_cases hk' : k₀ = k'
      · simp [hk']
      · simp [hk', ih]

theorem lookupKey_eq_none_of_not_mem (m : AttrMap) (k : String)
    (h : k ∉ m.map Prod.fst) : lookupKey k m = none := by
  induction m with
  | nil => rfl
  | cons hd tl ih =>
    obtain ⟨k₀, v₀⟩ := hd
    simp only [List.map_cons, List.mem_cons] at h
    push_neg at h
    simp [lookupKey, Ne.symm h.1, ih h.2]

theorem lookupKey_eraseKey_self (m : AttrMap) (k : String)
    (h : (m.map Prod.fst).Nodup) : lookupKey k (eraseKey k m) = none := by
  induction m with
  | nil => rfl
  | cons hd tl ih =>
    obtain ⟨k₀, v₀⟩ := hd
    simp only [List.map_cons, List.nodup_cons] at h
    by_cases hk : k₀ = k
    · subst hk
      simpa [eraseKey] using lookupKey_eq_none_of_not_mem tl k₀ h.1
    · simp [eraseKey, lookupKey, hk, ih h.2]

theorem transform_spec_eq_map (spec : Spec ℝ) (scale : ℝ) (origin : ℝ × ℝ)
    (rotation_deg : ℝ) :
    transform_spec spec scale origin rotation_deg =
      spec.map (transformElement scale origin rotation_deg) := by
  induction spec with
  | nil => rfl
  | cons el rest ih => simp [transform_spec, ih]

theorem combine_foldl (args : List (SpecArg ℚ)) (acc : Spec ℚ) :
    (args.foldl (fun acc a =>
      match extractArg a with
      | none => acc
      | some s => acc ++ s) acc) =
      acc ++ (args.filterMap extractArg).flatten := by
  induction args generalizing acc with
  | nil => simp
  | cons hd tl ih =>
    cases h : extractArg hd with
    | none => simp [List.foldl_cons, h, ih]
    | some s => simp [List.foldl_cons, h, ih]

theorem dedupGo_filter_isOther (d : ℕ) (seen : List (QPoint × QPoint)) (spec : Spec ℚ) :
    (dedupGo d seen spec).filter isOther = spec.filter isOther := by
  induction spec generalizing seen with
  | nil => rfl
  | cons el rest ih =>
    cases el with
    | bar s e a =>
      by_cases h : barKey d s e ∈ seen
      · simp [dedupGo, h, ih, List.filter_cons, isOther]
      · simp [dedupGo, h, ih, List.filter_cons, isOther]
    | other x => simp [dedupGo, ih, List.filter_cons, isOther]

theorem map_tagGround_of_no_match (d : ℕ) (qs qe : QPoint) (spec : Spec ℚ)
    (h : ∀ el ∈ spec, ¬ elMatches d qs qe el) :
    spec.map (tagGround d qs qe) = spec := by
  induction spec with
  | nil => rfl
  | cons el rest ih =>
    have hel := h el (List.mem_cons_self el rest)
    have hrest := ih fun e he => h e (List.mem_cons_of_mem el he)
    cases el with
    | bar s e a =>
      simp only [elMatches] at hel
      simp [tagGround, hel, hrest]
    | other x => simp [tagGround, hrest]

theorem map_tagSweep_of_no_match (d : ℕ) (qs qe : QPoint) (sw : ℚ × ℚ × ℚ)
    (spec : Spec ℚ) (h : ∀ el ∈ spec, ¬ elMatches d qs qe el) :
    spec.map (tagSweep d qs qe sw) = spec := by
  induction spec with
  | nil => rfl
  | cons el rest ih =>
    have hel := h el (List.mem_cons_self el rest)
    have hrest := ih fun e he => h e (List.mem_cons_of_mem el he)
    cases el with
    | bar s e a =>
      simp only [elMatches] at hel
      simp [tagSweep, hel, hrest]
    | other x => simp [tagSweep, hrest]

theorem attrLookup_tagGround (d : ℕ) (qs qe : QPoint) (el : Element ℚ) (k : String)
    (h : k ≠ "style") : attrLookup k (tagGround d qs qe el) = attrLookup k el := by
  cases el with
  | other x => rfl
  | bar s e attrs =>
    by_cases hm : barMatches d qs qe s e
    · cases attrs with
      | none => simp [tagGround, hm, attrLookup, attrsOf, lookupKey, Ne.symm h]
      | some m =>
        simp [tagGround, hm, attrLookup, attrsOf, lookupKey_dictSet_ne m "style" k _ h]
    · simp [tagGround, hm]

theorem attrLookup_tagSweep (d : ℕ) (qs qe : QPoint) (sw : ℚ × ℚ × ℚ)
    (el : Element ℚ) (k : String) (h : k ≠ "angle_sweep") :
    attrLookup k (tagSweep d qs qe sw el) = attrLookup k el := by
  cases el with
  | other x => rfl
  | bar s e attrs =>
    by_cases hm : barMatches d qs qe s e
    · cases attrs with
      | none => simp [tagSweep, hm, attrLookup, attrsOf, lookupKey, Ne.symm h]
      | some m =>
        simp [tagSweep, hm, attrLookup, attrsOf,
          lookupKey_dictSet_ne m "angle_sweep" k _ h]
    · simp [tagSweep, hm]

theorem set_style_ground_attrLookup (d : ℕ) (L : List (QPoint × QPoint))
    (spec : Spec ℚ) (i : ℕ) (k : String) (h : k ≠ "style") :
    ((set_style_ground spec L d)[i]?).map (attrLookup k) =
      (spec[i]?).map (attrLookup k) := by
  induction L generalizing spec with
  | nil => rfl
  | cons q L ih =>
    have step : set_style_ground spec (q :: L) d =
        set_style_ground
          (spec.map (tagGround d (round_coord q.1 d) (round_coord q.2 d))) L d := rfl
    rw [step, ih]
    rw [List.getElem?_map]
    cases spec[i]? with
    | none => rfl
    | some el => simp [attrLookup_tagGround _ _ _ el k h]

theorem set_angle_sweep_attrLookup (d : ℕ)
    (M : List ((QPoint × QPoint) × (ℚ × ℚ × ℚ))) (spec : Spec ℚ) (i : ℕ)
    (k : String) (h : k ≠ "angle_sweep") :
    ((set_angle_sweep spec M d)[i]?).map (attrLookup k) =
      (spec[i]?).map (attrLookup k) := by
  induction M generalizing spec with
  | nil => rfl
  | cons q M ih =>
    have step : set_angle_sweep spec (q :: M) d =
        set_angle_sweep
          (spec.map (tagSweep d (round_coord q.1.1 d) (round_coord q.1.2 d) q.2)) M d := rfl
    rw [step, ih]
    rw [List.getElem?_map]
    cases spec[i]? with
    | none => rfl
    | some el => simp [attrLookup_tagSweep _ _ _ _ el k h]

theorem sortPair_comm (a b : QPoint) : sortPair a b = sortPair b a := by
  obtain ⟨a1, a2⟩ := a
  obtain ⟨b1, b2⟩ := b
  unfold sortPair
  dsimp only
  rcases lt_trichotomy a1 b1 with h | h | h
  · rw [if_pos h, if_neg (asymm h), if_pos h]
  · subst h
    rw [if_neg (lt_irrefl a1), if_neg (lt_irrefl a1), if_neg (lt_irrefl a1),
      if_neg (lt_irrefl a1)]
    rcases le_total a2 b2 with h2 | h2
    · by_cases h3 : b2 ≤ a2
      · have h4 : a2 = b2 := le_antisymm h2 h3
        subst h4
        rw [if_pos h2]
      · rw [if_pos h2, if_neg h3]
    · by_cases h3 : a2 ≤ b2
      · have h4 : a2 = b2 := le_antisymm h3 h2
        subst h4
        rw [if_pos h2]
      · rw [if_neg h3, if_pos h2]
  · rw [if_neg (asymm h), if_pos h, if_pos h]

theorem isGroundAttrs_stripBarAttrs (a : Option AttrMap) :
    isGroundAttrs (stripBarAttrs a) = isGroundAttrs a := by
  cases a with
  | none => rfl
  | some m =>
    have h2 := lookupKey_eraseKey_ne m "angle_sweep" "style" (by decide)
    by_cases h : eraseKey "angle_sweep" m = []
    · have h3 : lookupKey "style" m = none := by
        rw [← h2, h]; rfl
      simp [stripBarAttrs, h, isGroundAttrs, h3]
    · simp [stripBarAttrs, h, isGroundAttrs, h2]

theorem stripBarAttrs_ne_some_nil (a : Option AttrMap) : stripBarAttrs a ≠ some [] := by
  cases a with
  | none => simp [stripBarAttrs]
  | some m =>
    by_cases h : eraseKey "angle_sweep" m = []
    · simp [stripBarAttrs, h]
    · simp [stripBarAttrs, h]

theorem lookupKey_dictSet_self (m : AttrMap) (k : String) (v : AttrVal) :
    lookupKey k (dictSet m k v) = some v := by
  induction m with
  | nil => simp [dictSet, lookupKey]
  | cons hd tl ih =>
    obtain ⟨k0, v0⟩ := hd
    by_cases h : k0 = k
    · simp [dictSet, h, lookupKey]
    · simp [dictSet, h, lookupKey, ih]

theorem dedupGo_sublist (d : ℕ) (seen : List (QPoint × QPoint)) (spec : Spec ℚ) :
    (dedupGo d seen spec).Sublist spec := by
  induction spec generalizing seen with
  | nil => simp [dedupGo]
  | cons el rest ih =>
    cases el with
    | bar s e a =>
      by_cases h : barKey d s e ∈ seen
      · simp only [dedupGo, if_pos h]
        exact List.Sublist.cons _ (ih seen)
      · simp only [dedupGo, if_neg h]
        exact List.Sublist.cons₂ _ (ih _)
    | other x =>
      simp only [dedupGo]
      exact List.Sublist.cons₂ _ (ih seen)

theorem elemKey_bar (d : ℕ) (s e : QPoint) (a : Option AttrMap) :
    elemKey d (Element.bar s e a) = some (barKey d s e) := rfl

theorem elemKey_other (d : ℕ) (x : String) : elemKey d (Element.other x) = none := rfl

theorem dedupGo_filter_key (d : ℕ) (k : QPoint × QPoint) (spec : Spec ℚ) :
    ∀ seen : List (QPoint × QPoint),
      (dedupGo d seen spec).filter (fun el => elemKey d el = some k) =
        if k ∈ seen then []
        else (spec.filter (fun el => elemKey d el = some k)).take 1 := by
  induction spec with
  | nil =>
    intro seen
    by_cases h : k ∈ seen <;> simp [dedupGo, h]
  | cons el rest ih =>
    intro seen
    cases el with
    | other x =>
      simp [dedupGo, List.filter_cons, elemKey_other, ih seen]
    | bar s e a =>
      simp only [dedupGo]
      by_cases hk : barKey d s e ∈ seen
      · rw [if_pos hk, ih seen]
        by_cases hks : k ∈ seen
        · simp [hks]
        · have hne : ¬ barKey d s e = k := fun h => hks (h ▸ hk)
          simp [hks, List.filter_cons, elemKey_bar, hne]
      · rw [if_neg hk]
        by_cases hkb : barKey d s e = k
        · subst hkb
          have h1 := ih (barKey d s e :: seen)
          rw [if_pos (List.mem_cons_self _ _)] at h1
          simp [List.filter_cons, elemKey_bar, h1, hk]
        · have hne' : ¬ k = barKey d s e := fun h => hkb h.symm
          by_cases hks : k ∈ seen
          · simp [List.filter_cons, elemKey_bar, hkb, ih (barKey d s e :: seen), hks, hne']
          · simp [List.filter_cons, elemKey_bar, hkb, ih (barKey d s e :: seen), hks, hne']

theorem tagGround_bar_shape (d : ℕ) (qs qe s e : QPoint) (attrs : Option AttrMap) :
    ∃ attrs', tagGround d qs qe (Element.bar s e attrs) = Element.bar s e attrs' := by
  by_cases hm : barMatches d qs qe s e
  · cases attrs with
    | none => exact ⟨some [("style", styleGroundVal)], by simp [tagGround, hm]⟩
    | some m => exact ⟨some (dictSet m "style" styleGroundVal), by simp [tagGround, hm]⟩
  · exact ⟨attrs, by simp [tagGround, hm]⟩

theorem tagGround_style_of_match (d : ℕ) (qs qe s e : QPoint) (attrs : Option AttrMap)
    (hm : barMatches d qs qe s e) :
    ∃ m, tagGround d qs qe (Element.bar s e attrs) = Element.bar s e (some m) ∧
      lookupKey "style" m = some styleGroundVal := by
  cases attrs with
  | none =>
    exact ⟨[("style", styleGroundVal)], by simp [tagGround, hm], by simp [lookupKey]⟩
  | some m0 =>
    exact ⟨dictSet m0 "style" styleGroundVal, by simp [tagGround, hm],
      lookupKey_dictSet_self m0 _ _⟩

theorem tagGround_keeps_style_ground (d : ℕ) (qs qe s e : QPoint) (m : AttrMap)
    (h : lookupKey "style" m = some styleGroundVal) :
    ∃ m', tagGround d qs qe (Element.bar s e (some m)) = Element.bar s e (some m') ∧
      lookupKey "style" m' = some styleGroundVal := by
  by_cases hm : barMatches d qs qe s e
  · exact ⟨dictSet m "style" styleGroundVal, by simp [tagGround, hm],
      lookupKey_dictSet_self _ _ _⟩
  · exact ⟨m, by simp [tagGround, hm], h⟩

theorem set_style_ground_length (d : ℕ) (L : List (QPoint × QPoint)) (spec : Spec ℚ) :
    (set_style_ground spec L d).length = spec.length := by
  induction L generalizing spec with
  | nil => rfl
  | cons q L ih =>
    rw [show set_style_ground spec (q :: L) d =
        set_style_ground
          (spec.map (tagGround d (round_coord q.1 d) (round_coord q.2 d))) L d from rfl,
      ih, List.length_map]

theorem set_style_ground_bar_endpoints (d : ℕ) (L : List (QPoint × QPoint))
    (spec : Spec ℚ) (i : ℕ) (s e : QPoint) (attrs : Option AttrMap)
    (h : spec[i]? = some (Element.bar s e attrs)) :
    ∃ attrs', (set_style_ground spec L d)[i]? = some (Element.bar s e attrs') := by
  induction L generalizing spec attrs with
  | nil => exact ⟨attrs, h⟩
  | cons q L ih =>
    obtain ⟨a', ha'⟩ := tagGround_bar_shape d (round_coord q.1 d) (round_coord q.2 d) s e attrs
    have h2 : (spec.map (tagGround d (round_coord q.1 d) (round_coord q.2 d)))[i]? =
        some (Element.bar s e a') := by
      rw [List.getElem?_map, h]
      simp [ha']
    exact ih _ a' h2

theorem set_style_ground_keeps_style_ground (d : ℕ) (L : List (QPoint × QPoint))
    (spec : Spec ℚ) (i : ℕ) (s e : QPoint) (m : AttrMap)
    (h : spec[i]? = some (Element.bar s e (some m)))
    (hst : lookupKey "style" m = some styleGroundVal) :
    ∃ m', (set_style_ground spec L d)[i]? = some (Element.bar s e (some m')) ∧
      lookupKey "style" m' = some styleGroundVal := by
  induction L generalizing spec m with
  | nil => exact ⟨m, h, hst⟩
  | cons q L ih =>
    obtain ⟨m1, hm1, hst1⟩ :=
      tagGround_keeps_style_ground d (round_coord q.1 d) (round_coord q.2 d) s e m hst
    have h2 : (spec.map (tagGround d (round_coord q.1 d) (round_coord q.2 d)))[i]? =
        some (Element.bar s e (some m1)) := by
      rw [List.getElem?_map, h]
      simp [hm1]
    exact ih _ m1 h2 hst1

theorem set_style_ground_sets_style (d : ℕ) (L : List (QPoint × QPoint))
    (spec : Spec ℚ) (pq : QPoint × QPoint) (hpq : pq ∈ L) (i : ℕ) (s e : QPoint)
    (attrs : Option AttrMap) (h : spec[i]? = some (Element.bar s e attrs))
    (hm : barMatches d (round_coord pq.1 d) (round_coord pq.2 d) s e) :
    ∃ m, (set_style_ground spec L d)[i]? = some (Element.bar s e (some m)) ∧
      lookupKey "style" m = some styleGroundVal := by
  induction hpq generalizing spec attrs with
  | head L' =>
    obtain ⟨m1, hm1, hst1⟩ :=
      tagGround_style_of_match d (round_coord pq.1 d) (round_coord pq.2 d) s e attrs hm
    have h2 : (spec.map (tagGround d (round_coord pq.1 d) (round_coord pq.2 d)))[i]? =
        some (Element.bar s e (some m1)) := by
      rw [List.getElem?_map, h]
      simp [hm1]
    exact set_style_ground_keeps_style_ground d L' _ i s e m1 h2 hst1
  | tail q hmem ih =>
    obtain ⟨a', ha'⟩ := tagGround_bar_shape d (round_coord q.1 d) (round_coord q.2 d) s e attrs
    have h2 : (spec.map (tagGround d (round_coord q.1 d) (round_coord q.2 d)))[i]? =
        some (Element.bar s e a') := by
      rw [List.getElem?_map, h]
      simp [ha']
    exact ih _ a' h2

theorem set_style_ground_no_match_bar (d : ℕ) (L : List (QPoint × QPoint))
    (spec : Spec ℚ) (i : ℕ) (s e : QPoint) (attrs : Option AttrMap)
    (h : spec[i]? = some (Element.bar s e attrs))
    (hm : ∀ pq ∈ L, ¬ barMatches d (round_coord pq.1 d) (round_coord pq.2 d) s e) :
    (set_style_ground spec L d)[i]? = some (Element.bar s e attrs) := by
  induction L generalizing spec with
  | nil => exact h
  | cons q L ih =>
    have h2 : (spec.map (tagGround d (round_coord q.1 d) (round_coord q.2 d)))[i]? =
        some (Element.bar s e attrs) := by
      rw [List.getElem?_map, h]
      simp [tagGround, hm q (List.mem_cons_self q L)]
    exact ih _ h2 fun pq hpq => hm pq (List.mem_cons_of_mem q hpq)

theorem set_style_ground_other (d : ℕ) (L : List (QPoint × QPoint)) (spec : Spec ℚ)
    (i : ℕ) (x : String) (h : spec[i]? = some (Element.other x)) :
    (set_style_ground spec L d)[i]? = some (Element.other x) := by
  induction L generalizing spec with
  | nil => exact h
  | cons q L ih =>
    have h2 : (spec.map (tagGround d (round_coord q.1 d) (round_coord q.2 d)))[i]? =
        some (Element.other x) := by
      rw [List.getElem?_map, h]
      rfl
    exact ih _ h2

theorem set_style_ground_noop (d : ℕ) (L : List (QPoint × QPoint)) (spec : Spec ℚ)
    (h : ∀ pq ∈ L, ∀ el ∈ spec,
      ¬ elMatches d (round_coord pq.1 d) (round_coord pq.2 d) el) :
    set_style_ground spec L d = spec := by
  induction L with
  | nil => rfl
  | cons q L ih =>
    have h1 : spec.map (tagGround d (round_coord q.1 d) (round_coord q.2 d)) = spec :=
      map_tagGround_of_no_match _ _ _ _ (h q (List.mem_cons_self q L))
    show set_style_ground
        (spec.map (tagGround d (round_coord q.1 d) (round_coord q.2 d))) L d = spec
    rw [h1]
    exact ih fun pq hpq => h pq (List.mem_cons_of_mem q hpq)

theorem tagSweep_bar_shape (d : ℕ) (qs qe s e : QPoint) (sw : ℚ × ℚ × ℚ)
    (attrs : Option AttrMap) :
    ∃ attrs', tagSweep d qs qe sw (Element.bar s e attrs) = Element.bar s e attrs' := by
  by_cases hm : barMatches d qs qe s e
  · cases attrs with
    | none =>
      exact ⟨some [("angle_sweep", AttrVal.sweep sw)], by simp [tagSweep, hm]⟩
    | some m =>
      exact ⟨some (dictSet m "angle_sweep" (AttrVal.sweep sw)), by simp [tagSweep, hm]⟩
  · exact ⟨attrs, by simp [tagSweep, hm]⟩

theorem tagSweep_sweep_of_match (d : ℕ) (qs qe s e : QPoint) (sw : ℚ × ℚ × ℚ)
    (attrs : Option AttrMap) (hm : barMatches d qs qe s e) :
    ∃ m, tagSweep d qs qe sw (Element.bar s e attrs) = Element.bar s e (some m) ∧
      lookupKey "angle_sweep" m = some (AttrVal.sweep sw) := by
  cases attrs with
  | none =>
    exact ⟨[("angle_sweep", AttrVal.sweep sw)], by simp [tagSweep, hm], by simp [lookupKey]⟩
  | some m0 =>
    exact ⟨dictSet m0 "angle_sweep" (AttrVal.sweep sw), by simp [tagSweep, hm],
      lookupKey_dictSet_self m0 _ _⟩

theorem set_angle_sweep_length (d : ℕ)
    (M : List ((QPoint × QPoint) × (ℚ × ℚ × ℚ))) (spec : Spec ℚ) :
    (set_angle_sweep spec M d).length = spec.length := by
  induction M generalizing spec with
  | nil => rfl
  | cons q M ih =>
    rw [show set_angle_sweep spec (q :: M) d =
        set_angle_sweep
          (spec.map (tagSweep d (round_coord q.1.1 d) (round_coord q.1.2 d) q.2)) M d
        from rfl, ih, List.length_map]

theorem set_angle_sweep_no_match_bar (d : ℕ)
    (M : List ((QPoint × QPoint) × (ℚ × ℚ × ℚ))) (spec : Spec ℚ) (i : ℕ)
    (s e : QPoint) (attrs : Option AttrMap)
    (h : spec[i]? = some (Element.bar s e attrs))
    (hm : ∀ q ∈ M, ¬ barMatches d (round_coord q.1.1 d) (round_coord q.1.2 d) s e) :
    (set_angle_sweep spec M d)[i]? = some (Element.bar s e attrs) := by
  induction M generalizing spec with
  | nil => exact h
  | cons q M ih =>
    have h2 : (spec.map (tagSweep d (round_coord q.1.1 d) (round_coord q.1.2 d) q.2))[i]? =
        some (Element.bar s e attrs) := by
      rw [List.getElem?_map, h]
      simp [tagSweep, hm q (List.mem_cons_self q M)]
    exact ih _ h2 fun q' hq' => hm q' (List.mem_cons_of_mem q hq')

theorem set_angle_sweep_sets_sweep (d : ℕ)
    (M1 M2 : List ((QPoint × QPoint) × (ℚ × ℚ × ℚ)))
    (q : (QPoint × QPoint) × (ℚ × ℚ × ℚ)) (spec : Spec ℚ) (i : ℕ) (s e : QPoint)
    (attrs : Option AttrMap) (h : spec[i]? = some (Element.bar s e attrs))
    (hm : barMatches d (round_coord q.1.1 d) (round_coord q.1.2 d) s e)
    (hlater : ∀ q' ∈ M2,
      ¬ barMatches d (round_coord q'.1.1 d) (round_coord q'.1.2 d) s e) :
    ∃ m, (set_angle_sweep spec (M1 ++ q :: M2) d)[i]? =
        some (Element.bar s e (some m)) ∧
      lookupKey "angle_sweep" m = some (AttrVal.sweep q.2) := by
  induction M1 generalizing spec attrs with
  | nil =>
    obtain ⟨m1, hm1, hsw1⟩ :=
      tagSweep_sweep_of_match d (round_coord q.1.1 d) (round_coord q.1.2 d) s e q.2 attrs hm
    have h2 : (spec.map (tagSweep d (round_coord q.1.1 d) (round_coord q.1.2 d) q.2))[i]? =
        some (Element.bar s e (some m1)) := by
      rw [List.getElem?_map, h]
      simp [hm1]
    exact ⟨m1, set_angle_sweep_no_match_bar d M2 _ i s e (some m1) h2 hlater, hsw1⟩
  | cons q0 M1 ih =>
    obtain ⟨a', ha'⟩ :=
      tagSweep_bar_shape d (round_coord q0.1.1 d) (round_coord q0.1.2 d) s e q0.2 attrs
    have h2 : (spec.map (tagSweep d (round_coord q0.1.1 d) (round_coord q0.1.2 d) q0.2))[i]? =
        some (Element.bar s e a') := by
      rw [List.getElem?_map, h]
      simp [ha']
    exact ih _ a' h2

theorem set_angle_sweep_other (d : ℕ)
    (M : List ((QPoint × QPoint) × (ℚ × ℚ × ℚ))) (spec : Spec ℚ) (i : ℕ) (x : String)
    (h : spec[i]? = some (Element.other x)) :
    (set_angle_sweep spec M d)[i]? = some (Element.other x) := by
  induction M generalizing spec with
  | nil => exact h
  | cons q M ih =>
    have h2 : (spec.map (tagSweep d (round_coord q.1.1 d) (round_coord q.1.2 d) q.2))[i]? =
        some (Element.other x) := by
      rw [List.getElem?_map, h]
      rfl
    exact ih _ h2

theorem set_angle_sweep_noop (d : ℕ)
    (M : List ((QPoint × QPoint) × (ℚ × ℚ × ℚ))) (spec : Spec ℚ)
    (h : ∀ q ∈ M, ∀ el ∈ spec,
      ¬ elMatches d (round_coord q.1.1 d) (round_coord q.1.2 d) el) :
    set_angle_sweep spec M d = spec := by
  induction M with
  | nil => rfl
  | cons q M ih =>
    have h1 : spec.map (tagSweep d (round_coord q.1.1 d) (round_coord q.1.2 d) q.2) = spec :=
      map_tagSweep_of_no_match _ _ _ _ _ (h q (List.mem_cons_self q M))
    show set_angle_sweep
        (spec.map (tagSweep d (round_coord q.1.1 d) (round_coord q.1.2 d) q.2)) M d = spec
    rw [h1]
    exact ih fun q' hq' => h q' (List.mem_cons_of_mem q hq')

/-! ### The claims -/

/-- C1: `scale_rotate_translate_coord` returns exactly the scaled point,
rotated about (0,0) by the angle converted from degrees to radians, then
translated by the origin; in particular it maps (1,0) with scale 2,
rotation 90° and origin (5,5) to (5,7). -/
theorem scale_rotate_translate_coord_formula :
    (∀ x y s d ox oy : ℝ,
      scale_rotate_translate_coord (x, y) s d (ox, oy) =
        (s * x * Real.cos (d * Real.pi / 180) - s * y * Real.sin (d * Real.pi / 180) + ox,
         s * x * Real.sin (d * Real.pi / 180) + s * y * Real.cos (d * Real.pi / 180) + oy))
    ∧ scale_rotate_translate_coord (1, 0) 2 90 (5, 5) = (5, 7) := by
  constructor
  · intro x y s d ox oy
    simp only [scale_rotate_translate_coord, Prod.mk.injEq]
    constructor <;> ring
  · have h90 : (90 : ℝ) * Real.pi / 180 = Real.pi / 2 := by ring
    simp only [scale_rotate_translate_coord, h90, Real.cos_pi_div_two, Real.sin_pi_div_two]
    norm_num

/-- C7: the coordinate transform with scale 1, rotation 0 and origin (0,0)
is the identity, and `transform_spec` with those parameters returns the
input specification unchanged. -/
theorem transform_identity_params :
    (∀ p : ℝ × ℝ, scale_rotate_translate_coord p 1 0 (0, 0) = p)
    ∧ ∀ spec : Spec ℝ, transform_spec spec 1 (0, 0) 0 = spec := by
  have hp : ∀ p : ℝ × ℝ, scale_rotate_translate_coord p 1 0 (0, 0) = p := by
    intro p
    simp [scale_rotate_translate_coord]
  refine ⟨hp, ?_⟩
  intro spec
  induction spec with
  | nil => rfl
  | cons el rest ih =>
    cases el with
    | bar s e a =>
      simp only [transform_spec, transformElement, ih]
      rw [hp s, hp e]
    | other x =>
      simp only [transform_spec, transformElement, ih]

/-- C6: `transform_spec` produces a specification of the same length in
which every bar has both endpoints mapped through the coordinate transform
with its options dictionary unchanged, and every non-bar element is
unchanged at its original position. -/
theorem transform_spec_pointwise :
    ∀ (spec : Spec ℝ) (scale rot : ℝ) (origin : ℝ × ℝ),
      (transform_spec spec scale origin rot).length = spec.length
      ∧ (∀ (i : ℕ) (s e : ℝ × ℝ) (attrs : Option AttrMap),
          spec[i]? = some (Element.bar s e attrs) →
          (transform_spec spec scale origin rot)[i]? =
            some (Element.bar (scale_rotate_translate_coord s scale rot origin)
              (scale_rotate_translate_coord e scale rot origin) attrs))
      ∧ (∀ (i : ℕ) (x : String), spec[i]? = some (Element.other x) →
          (transform_spec spec scale origin rot)[i]? = some (Element.other x)) := by
  intro spec scale rot origin
  refine ⟨by simp [transform_spec_eq_map], ?_, ?_⟩
  · intro i s e attrs h
    rw [transform_spec_eq_map, List.getElem?_map, h]
    rfl
  · intro i x h
    rw [transform_spec_eq_map, List.getElem?_map, h]
    rfl

/-- Witness for C6 at a concrete one-element specification. -/
theorem transform_spec_pointwise_witness :
    (transform_spec [Element.other "mechanism"] 1 (0, 0) 0)[0]? =
      some (Element.other "mechanism") :=
  (transform_spec_pointwise [Element.other "mechanism"] 1 0 (0, 0)).2.2 0 "mechanism" rfl

/-- C2: two bars are duplicates exactly when their rounded endpoint pairs,
sorted, coincide; the key is order-independent, and combining a bar (A,B)
with a bar (B,A) yields a single bar. -/
theorem duplicate_bar_key_iff :
    (∀ (d : ℕ) (A B C D : QPoint) (a1 a2 : Option AttrMap),
      (remove_duplicate_bars [Element.bar A B a1, Element.bar C D a2] d).length = 1 ↔
        sortPair (round_coord C d) (round_coord D d) =
          sortPair (round_coord A d) (round_coord B d))
    ∧ (∀ (d : ℕ) (A B : QPoint), barKey d A B = barKey d B A)
    ∧ combine_specs [SpecArg.specArg [Element.bar (0, 0) (1, 1) none],
        SpecArg.specArg [Element.bar (1, 1) (0, 0) none]] =
      [Element.bar (0, 0) (1, 1) none] := by
  refine ⟨?_, ?_, ?_⟩
  · intro d A B C D a1 a2
    by_cases h : sortPair (round_coord C d) (round_coord D d) =
        sortPair (round_coord A d) (round_coord B d)
    · simp [remove_duplicate_bars, dedupGo, barKey, h]
    · simp [remove_duplicate_bars, dedupGo, barKey, h]
  · intro d A B
    unfold barKey
    exact sortPair_comm _ _
  · norm_num [combine_specs, remove_duplicate_bars, dedupGo, extractArg, barKey,
      round_coord, sortPair, pyRound_den_one]

/-- C4: `combine_specs` skips `None` arguments, takes the first item of a
tuple argument, concatenates the element sequences in argument order and
removes duplicate bars from the concatenation. -/
theorem combine_specs_concat_dedup :
    (∀ args : List (SpecArg ℚ),
      combine_specs args = remove_duplicate_bars ((args.filterMap extractArg).flatten) 3)
    ∧ combine_specs [SpecArg.noneArg] = []
    ∧ combine_specs [SpecArg.noneArg, SpecArg.specArg [Element.bar (0, 0) (1, 1) none],
        SpecArg.tupleArg (some [Element.bar (0, 0) (2, 2) none]) 7] =
      [Element.bar (0, 0) (1, 1) none, Element.bar (0, 0) (2, 2) none] := by
  refine ⟨?_, rfl, ?_⟩
  · intro args
    unfold combine_specs
    rw [combine_foldl, List.nil_append]
  · norm_num [combine_specs, remove_duplicate_bars, dedupGo, extractArg, barKey,
      round_coord, sortPair, pyRound_den_one]

/-- C5: deduplication resolves attribute conflicts by first wins over
arbitrary sequences: for every key, exactly the first bar carrying that key
survives, together with its attribute map, and every later bar with the
same key is dropped even if its attributes differ; the output is a
subsequence of the input; a ground-tagged bar followed by an untagged
reversed duplicate keeps the ground tag. -/
theorem duplicate_bar_first_wins :
    (∀ (d : ℕ) (spec : Spec ℚ) (k : QPoint × QPoint),
      (remove_duplicate_bars spec d).filter (fun el => elemKey d el = some k) =
        (spec.filter (fun el => elemKey d el = some k)).take 1)
    ∧ (∀ (d : ℕ) (spec : Spec ℚ), (remove_duplicate_bars spec d).Sublist spec)
    ∧ (∀ (d : ℕ) (A B C D : QPoint) (a1 a2 : Option AttrMap),
        barKey d C D = barKey d A B →
        remove_duplicate_bars [Element.bar A B a1, Element.bar C D a2] d =
          [Element.bar A B a1])
    ∧ combine_specs
        [SpecArg.specArg [Element.bar (0, 0) (1, 1) (some [("style", styleGroundVal)])],
         SpecArg.specArg [Element.bar (1, 1) (0, 0) none]] =
      [Element.bar (0, 0) (1, 1) (some [("style", styleGroundVal)])] := by
  refine ⟨?_, ?_, ?_, ?_⟩
  · intro d spec k
    have h := dedupGo_filter_key d k spec []
    simpa [remove_duplicate_bars] using h
  · intro d spec
    exact dedupGo_sublist d [] spec
  · intro d A B C D a1 a2 h
    simp [remove_duplicate_bars, dedupGo, h]
  · norm_num [combine_specs, remove_duplicate_bars, dedupGo, extractArg, barKey,
      round_coord, sortPair, pyRound_den_one]

/-- Witness for C5: the general first-wins statement applied to the bars
(0,0)-(1,1) (ground-tagged) and (1,1)-(0,0) (untagged). -/
theorem duplicate_bar_first_wins_witness :
    remove_duplicate_bars
        [Element.bar (0, 0) (1, 1) (some [("style", styleGroundVal)]),
         Element.bar (1, 1) (0, 0) none] 3 =
      [Element.bar (0, 0) (1, 1) (some [("style", styleGroundVal)])] :=
  duplicate_bar_first_wins.2.2.1 3 (0, 0) (1, 1) (1, 1) (0, 0) _ _
    (by simp [barKey, round_coord, sortPair_comm])

/-- C3: for every query pair of an arbitrary `bar_list` given to
`set_style_ground`, every bar whose rounded endpoints match the rounded
query pair in either order ends with its attribute map's style set to
"ground" (the map being created when the bar had none); for every key of
an arbitrary map given to `set_angle_sweep` that is the last key (in the
map's iteration order) matching a bar, that bar ends with its
`angle_sweep` set to the mapped sweep triple; all other elements are
unchanged at their positions, and queries matching no bar leave the
specification unchanged. (The Python functions mutate the list in place;
the model returns the updated specification.) -/
theorem set_tagging_matches :
    ∀ (d : ℕ) (L : List (QPoint × QPoint))
      (M : List ((QPoint × QPoint) × (ℚ × ℚ × ℚ))) (spec : Spec ℚ),
      (set_style_ground spec L d).length = spec.length
      ∧ (∀ pq ∈ L, ∀ (i : ℕ) (s e : QPoint) (attrs : Option AttrMap),
          spec[i]? = some (Element.bar s e attrs) →
          barMatches d (round_coord pq.1 d) (round_coord pq.2 d) s e →
          ∃ m, (set_style_ground spec L d)[i]? = some (Element.bar s e (some m)) ∧
            lookupKey "style" m = some styleGroundVal)
      ∧ (∀ (i : ℕ) (s e : QPoint) (attrs : Option AttrMap),
          spec[i]? = some (Element.bar s e attrs) →
          (∀ pq ∈ L, ¬ barMatches d (round_coord pq.1 d) (round_coord pq.2 d) s e) →
          (set_style_ground spec L d)[i]? = some (Element.bar s e attrs))
      ∧ (∀ (i : ℕ) (x : String), spec[i]? = some (Element.other x) →
          (set_style_ground spec L d)[i]? = some (Element.other x))
      ∧ ((∀ pq ∈ L, ∀ el ∈ spec,
            ¬ elMatches d (round_coord pq.1 d) (round_coord pq.2 d) el) →
          set_style_ground spec L d = spec)
      ∧ (set_angle_sweep spec M d).length = spec.length
      ∧ (∀ (M1 M2 : List ((QPoint × QPoint) × (ℚ × ℚ × ℚ)))
          (q : (QPoint × QPoint) × (ℚ × ℚ × ℚ)), M = M1 ++ q :: M2 →
          ∀ (i : ℕ) (s e : QPoint) (attrs : Option AttrMap),
          spec[i]? = some (Element.bar s e attrs) →
          barMatches d (round_coord q.1.1 d) (round_coord q.1.2 d) s e →
          (∀ q' ∈ M2,
            ¬ barMatches d (round_coord q'.1.1 d) (round_coord q'.1.2 d) s e) →
          ∃ m, (set_angle_sweep spec M d)[i]? = some (Element.bar s e (some m)) ∧
            lookupKey "angle_sweep" m = some (AttrVal.sweep q.2))
      ∧ (∀ (i : ℕ) (s e : QPoint) (attrs : Option AttrMap),
          spec[i]? = some (Element.bar s e attrs) →
          (∀ q ∈ M, ¬ barMatches d (round_coord q.1.1 d) (round_coord q.1.2 d) s e) →
          (set_angle_sweep spec M d)[i]? = some (Element.bar s e attrs))
      ∧ (∀ (i : ℕ) (x : String), spec[i]? = some (Element.other x) →
          (set_angle_sweep spec M d)[i]? = some (Element.other x))
      ∧ ((∀ q ∈ M, ∀ el ∈ spec,
            ¬ elMatches d (round_coord q.1.1 d) (round_coord q.1.2 d) el) →
          set_angle_sweep spec M d = spec)
      ∧ (∀ (p q : QPoint) (i : ℕ) (s e : QPoint) (attrs : Option AttrMap),
          spec[i]? = some (Element.bar s e attrs) →
          barMatches d (round_coord p d) (round_coord q d) s e →
          (set_style_ground spec [(p, q)] d)[i]? =
            some (Element.bar s e
              (some (dictSet (attrs.getD []) "style" styleGroundVal)))) := by
  intro d L M spec
  refine ⟨set_style_ground_length d L spec,
    fun pq hpq i s e attrs h hm =>
      set_style_ground_sets_style d L spec pq hpq i s e attrs h hm,
    fun i s e attrs h hm => set_style_ground_no_match_bar d L spec i s e attrs h hm,
    fun i x h => set_style_ground_other d L spec i x h,
    fun h => set_style_ground_noop d L spec h,
    set_angle_sweep_length d M spec,
    ?_,
    fun i s e attrs h hm => set_angle_sweep_no_match_bar d M spec i s e attrs h hm,
    fun i x h => set_angle_sweep_other d M spec i x h,
    fun h => set_angle_sweep_noop d M spec h,
    ?_⟩
  · intro M1 M2 q hM i s e attrs h hm hlater
    subst hM
    exact set_angle_sweep_sets_sweep d M1 M2 q spec i s e attrs h hm hlater
  · intro p q i s e attrs h hm
    have hg : set_style_ground spec [(p, q)] d =
        spec.map (tagGround d (round_coord p d) (round_coord q d)) := rfl
    rw [hg, List.getElem?_map, h]
    cases attrs with
    | none => simp [tagGround, hm, dictSet]
    | some m => simp [tagGround, hm]

/-- Witness for C3: tagging the bar (0,0)-(1,1) as ground in a one-bar
specification. -/
theorem set_tagging_matches_witness :
    (set_style_ground [Element.bar (0, 0) (1, 1) none] [((0, 0), (1, 1))] 3)[0]? =
      some (Element.bar (0, 0) (1, 1) (some [("style", styleGroundVal)])) :=
  (set_tagging_matches 3 [] []
      [Element.bar (0, 0) (1, 1) none]).2.2.2.2.2.2.2.2.2.2
    (0, 0) (1, 1) 0 (0, 0) (1, 1) none rfl (Or.inl ⟨rfl, rfl⟩)

/-- C8: `set_style_ground` changes no attribute key other than `style`,
`set_angle_sweep` changes no key other than `angle_sweep`, and
`transform_spec` changes no attribute key at all. -/
theorem attr_keys_preserved :
    (∀ (d : ℕ) (L : List (QPoint × QPoint)) (spec : Spec ℚ) (i : ℕ) (k : String),
      k ≠ "style" →
      ((set_style_ground spec L d)[i]?).map (attrLookup k) =
        (spec[i]?).map (attrLookup k))
    ∧ (∀ (d : ℕ) (M : List ((QPoint × QPoint) × (ℚ × ℚ × ℚ))) (spec : Spec ℚ)
        (i : ℕ) (k : String), k ≠ "angle_sweep" →
        ((set_angle_sweep spec M d)[i]?).map (attrLookup k) =
          (spec[i]?).map (attrLookup k))
    ∧ (∀ (spec : Spec ℝ) (scale rot : ℝ) (origin : ℝ × ℝ) (i : ℕ),
        ((transform_spec spec scale origin rot)[i]?).map attrsOf =
          (spec[i]?).map attrsOf) := by
  refine ⟨set_style_ground_attrLookup, set_angle_sweep_attrLookup, ?_⟩
  intro spec scale rot origin i
  rw [transform_spec_eq_map, List.getElem?_map]
  cases spec[i]? with
  | none => rfl
  | some el => cases el <;> rfl

/-- Witness for C8: an unknown key survives `set_style_ground` on a
matching bar. -/
theorem attr_keys_preserved_witness :
    ((set_style_ground [Element.bar (0, 0) (1, 1) (some [("custom", AttrVal.nat 5)])]
        [((0, 0), (1, 1))] 3)[0]?).map (attrLookup "custom") =
      (([Element.bar (0, 0) (1, 1) (some [("custom", AttrVal.nat 5)])] : Spec ℚ)[0]?).map
        (attrLookup "custom") :=
  attr_keys_preserved.1 3 [((0, 0), (1, 1))]
    [Element.bar (0, 0) (1, 1) (some [("custom", AttrVal.nat 5)])] 0 "custom" (by decide)

/-- C10: deduplication never removes non-bar elements: they appear in the
output of `remove_duplicate_bars` (and of `combine_specs`) in their
original relative order and multiplicity. -/
theorem dedup_preserves_non_bars :
    ∀ (d : ℕ) (spec : Spec ℚ) (args : List (SpecArg ℚ)),
      (remove_duplicate_bars spec d).filter isOther = spec.filter isOther
      ∧ (combine_specs args).filter isOther =
          ((args.filterMap extractArg).flatten).filter isOther := by
  intro d spec args
  refine ⟨dedupGo_filter_isOther d [] spec, ?_⟩
  unfold combine_specs
  rw [combine_foldl, List.nil_append]
  exact dedupGo_filter_isOther 3 [] _

theorem bar_mem_remove_ground_and_sweep (spec : Spec ℚ) (s e : QPoint)
    (attrs : Option AttrMap)
    (h : Element.bar s e attrs ∈ remove_ground_and_sweep spec) :
    ∃ a0, Element.bar s e a0 ∈ spec ∧ isGroundAttrs a0 = false ∧
      attrs = stripBarAttrs a0 := by
  induction spec with
  | nil => simp [remove_ground_and_sweep] at h
  | cons el rest ih =>
    cases el with
    | bar s0 e0 a0 =>
      cases hg : isGroundAttrs a0 with
      | true =>
        rw [remove_ground_and_sweep, if_pos hg] at h
        obtain ⟨a1, h1, h2, h3⟩ := ih h
        exact ⟨a1, List.mem_cons_of_mem _ h1, h2, h3⟩
      | false =>
        rw [remove_ground_and_sweep, if_neg (by simp [hg])] at h
        rcases List.mem_cons.mp h with heq | htail
        · obtain ⟨rfl, rfl, rfl⟩ :
            s = s0 ∧ e = e0 ∧ attrs = stripBarAttrs a0 := by
            simpa [Element.bar.injEq] using heq
          exact ⟨a0, List.mem_cons_self _ _, hg, rfl⟩
        · obtain ⟨a1, h1, h2, h3⟩ := ih htail
          exact ⟨a1, List.mem_cons_of_mem _ h1, h2, h3⟩
    | other x =>
      rw [remove_ground_and_sweep] at h
      rcases List.mem_cons.mp h with heq | htail
      · simp at heq
      · obtain ⟨a1, h1, h2, h3⟩ := ih htail
        exact ⟨a1, List.mem_cons_of_mem _ h1, h2, h3⟩

theorem bar_survives_remove_ground_and_sweep (spec : Spec ℚ) (s e : QPoint)
    (attrs : Option AttrMap) (h1 : Element.bar s e attrs ∈ spec)
    (h2 : isGroundAttrs attrs = false) :
    Element.bar s e (stripBarAttrs attrs) ∈ remove_ground_and_sweep spec := by
  induction spec with
  | nil => simp at h1
  | cons el rest ih =>
    rcases List.mem_cons.mp h1 with heq | htail
    · subst heq
      rw [remove_ground_and_sweep, if_neg (by simp [h2])]
      exact List.mem_cons_self _ _
    · cases el with
      | bar s0 e0 a0 =>
        cases hg : isGroundAttrs a0 with
        | true =>
          rw [remove_ground_and_sweep, if_pos hg]
          exact ih htail
        | false =>
          rw [remove_ground_and_sweep, if_neg (by simp [hg])]
          exact List.mem_cons_of_mem _ (ih htail)
      | other x =>
        rw [remove_ground_and_sweep]
        exact List.mem_cons_of_mem _ (ih htail)

/-- C9: `remove_ground_and_sweep` omits every bar styled "ground", removes
the `angle_sweep` key from every surviving bar (stated under the dict
well-formedness condition that attribute maps have no duplicate keys), and
re-emits a bar without an options dictionary when the removal leaves the
dictionary empty; non-ground bars all survive. -/
theorem remove_ground_and_sweep_behaviour :
    ∀ spec : Spec ℚ,
      (∀ (s e : QPoint) (attrs : Option AttrMap),
          Element.bar s e attrs ∈ remove_ground_and_sweep spec →
          isGroundAttrs attrs = false ∧ attrs ≠ some [])
      ∧ (∀ (s e : QPoint) (m : AttrMap),
          (∀ (s' e' : QPoint) (m' : AttrMap),
            Element.bar s' e' (some m') ∈ spec → (m'.map Prod.fst).Nodup) →
          Element.bar s e (some m) ∈ remove_ground_and_sweep spec →
          lookupKey "angle_sweep" m = none)
      ∧ (∀ (s e : QPoint) (attrs : Option AttrMap),
          Element.bar s e attrs ∈ spec → isGroundAttrs attrs = false →
          Element.bar s e (stripBarAttrs attrs) ∈ remove_ground_and_sweep spec)
      ∧ remove_ground_and_sweep
          [Element.bar (0, 0) (1, 1) (some [("style", styleGroundVal)]),
           Element.bar (1, 1) (2, 0) (some [("angle_sweep", AttrVal.sweep (0, 0, 1))])] =
        [Element.bar (1, 1) (2, 0) none] := by
  intro spec
  refine ⟨?_, ?_, bar_survives_remove_ground_and_sweep spec, ?_⟩
  · intro s e attrs h
    obtain ⟨a0, _, h2, rfl⟩ := bar_mem_remove_ground_and_sweep spec s e attrs h
    exact ⟨(isGroundAttrs_stripBarAttrs a0).trans h2, stripBarAttrs_ne_some_nil a0⟩
  · intro s e m hwf h
    obtain ⟨a0, h1, _, h3⟩ := bar_mem_remove_ground_and_sweep spec s e _ h
    cases a0 with
    | none => simp [stripBarAttrs] at h3
    | some m0 =>
      by_cases he : eraseKey "angle_sweep" m0 = []
      · simp [stripBarAttrs, he] at h3
      · have hm : m = eraseKey "angle_sweep" m0 := by
          simpa [stripBarAttrs, he] using h3
        rw [hm]
        exact lookupKey_eraseKey_self m0 "angle_sweep" (hwf s e m0 h1)
  · rfl

/-- Witness for C9: the sweep-tagged bar of the concrete specification
survives with its options dictionary stripped. -/
theorem remove_ground_and_sweep_behaviour_witness :
    Element.bar (1, 1) (2, 0)
        (stripBarAttrs (some [("angle_sweep", AttrVal.sweep (0, 0, 1))])) ∈
      remove_ground_and_sweep
        ([Element.bar (0, 0) (1, 1) (some [("style", styleGroundVal)]),
          Element.bar (1, 1) (2, 0)
            (some [("angle_sweep", AttrVal.sweep (0, 0, 1))])] : Spec ℚ) :=
  (remove_ground_and_sweep_behaviour
      [Element.bar (0, 0) (1, 1) (some [("style", styleGroundVal)]),
       Element.bar (1, 1) (2, 0)
         (some [("angle_sweep", AttrVal.sweep (0, 0, 1))])]).2.2.1
    (1, 1) (2, 0) (some [("angle_sweep", AttrVal.sweep (0, 0, 1))])
    (List.mem_cons_of_mem _ (List.mem_cons_self _ _)) rfl

end Mechanismaf
